import Mathlib

/-!
Verification of the document search indexing and search pipeline of the
`docs` backend (`core/services/search_indexers.py`, `core/tasks/search.py`,
`core/tasks/find.py`) against its natural-language specification.

The Python sources are shallowly embedded as executable Lean definitions:

* a materialized path is a list of fixed-width segments (`Path := List Nat`;
  one list element per `steplen`-wide step, so segment-aligned prefixes of the
  Python string paths are exactly list prefixes here);
* a Django queryset ordered by a column is a Lean list;
* Python `Optional[str]` values are `Option String`, and Python truthiness on
  them (`if user_sub:`, `if team:`, `if doc_content:`) is the `truthy` test;
* Python `set`s are lists updated with `List.insert` (add-if-absent), and
  the `defaultdict` of resolved accesses is a total function `Path → Resolved`
  defaulting to empty (which also models the `.get(path, {})` lookups);
* the shared cache used by the debounce/throttle coordinators is explicit
  state (`Option Int` counters and `Bool` flags), and the celery queue is the
  list of scheduled job arguments;
* fallible code returns `Except`.
-/

namespace DocsSearch

/-- A materialized path: one list element per fixed-width step of the Python
string path. Segment-aligned ancestor paths are exactly the nonempty strict
or improper list prefixes. -/
abbrev Path := List Nat

/-- A row of the `Document` table, with the fields read by the indexing
pipeline. `title` and `content` are `Option String` because the Python fields
may be `None`; absent values and empty strings are both falsy in the source.
`deleted_at` and `ancestors_deleted_at` are modeled as the booleans
`bool(deleted_at)` / `bool(ancestors_deleted_at)` since only truthiness of
these markers is ever used by the pipeline. -/
structure Document where
  id : Nat
  path : Path
  title : Option String
  content : Option String
  depth : Nat
  numchild : Nat
  created_at : String
  updated_at : String
  computed_link_reach : String
  deleted_at : Bool
  ancestors_deleted_at : Bool
deriving DecidableEq, Repr

/-- A row of the `DocumentAccess` values query
`values("document__path", "user__sub", "team")` in
`get_batch_accesses_by_users_and_teams`: the grant's document path plus
exactly one principal (the other field is `None`/empty). -/
structure AccessRow where
  document_path : Path
  user_sub : Option String
  team : Option String
deriving DecidableEq, Repr

/-- Python truthiness of an `Optional[str]`: `None` and `""` are falsy. -/
def truthy : Option String → Bool
  | none => false
  | some s => s ≠ ""

/-- The `{"users": set(), "teams": set()}` entry of the access `defaultdict`,
with Python sets modeled as add-if-absent lists. -/
structure Resolved where
  users : List String
  teams : List String
deriving DecidableEq, Repr

/-- The `defaultdict` default entry: empty user and team sets. -/
def emptyResolved : Resolved := ⟨[], []⟩

/-- Modelled from the spec: `core.utils.get_ancestor_to_descendants_map` is
not part of the sources. Per the spec (§4.1), the ancestor map's keys are every
segment-aligned nonempty prefix of each input path, up to the path's own depth,
with each path counted among its own ancestors. `ancestorPrefixes p` lists
those prefixes of one path `p`. -/
def ancestorPrefixes (p : Path) : List Path :=
  (List.range p.length).map (fun i => p.take (i + 1))

/-- Modelled from the spec: the descendant set the ancestor map associates to
a candidate ancestor path `q` — the input paths that have `q` among their
(segment-aligned, self-inclusive) ancestor prefixes. -/
def descendantsIn (paths : List Path) (q : Path) : List Path :=
  paths.filter (fun p => decide (q ∈ ancestorPrefixes p))

/-- The ancestor paths queried by `get_batch_accesses_by_users_and_teams`
(the keys of the ancestor map). -/
def ancestorKeys (paths : List Path) : List Path :=
  paths.flatMap ancestorPrefixes

/-- The body of the access loop for one access row and one descendant path:
`if user_sub: ...add(str(user_sub))` and `if team: ...add(team)` on that
descendant's entry. -/
def addPrincipals (acc : Resolved) (row : AccessRow) : Resolved :=
  { users :=
      match row.user_sub with
      | some u => if u ≠ "" then acc.users.insert u else acc.users
      | none => acc.users,
    teams :=
      match row.team with
      | some t => if t ≠ "" then acc.teams.insert t else acc.teams
      | none => acc.teams }

/-- One iteration of the outer loop of
`get_batch_accesses_by_users_and_teams`: propagate one access row to every
descendant path the ancestor map associates to the row's document path. -/
def applyRow (paths : List Path) (acc : Path → Resolved) (row : AccessRow) :
    Path → Resolved :=
  (descendantsIn paths row.document_path).foldl
    (fun acc q => fun p => if p = q then addPrincipals (acc q) row else acc p) acc

/-- `get_batch_accesses_by_users_and_teams(paths)` from
`core/services/search_indexers.py`: filter the access rows to those whose
document path is an ancestor path of the batch, then accumulate each row's
principal into every descendant path's entry. The access store (the
`DocumentAccess` table) is the explicit `store` argument; the resulting
`defaultdict` (together with the `.get(path, {})` defaults used by readers)
is the returned total function. -/
def get_batch_accesses_by_users_and_teams (store : List AccessRow)
    (paths : List Path) : Path → Resolved :=
  (store.filter (fun r => decide (r.document_path ∈ ancestorKeys paths))).foldl
    (applyRow paths) (fun _ => emptyResolved)

section ResolveLemmas

/-- Membership in the users set after one row's `addPrincipals`. -/
lemma mem_users_addPrincipals {acc : Resolved} {row : AccessRow} {u : String} :
    u ∈ (addPrincipals acc row).users ↔
      u ∈ acc.users ∨ (row.user_sub = some u ∧ u ≠ "") := by
  unfold addPrincipals
  cases hrow : row.user_sub with
  | none => simp
  | some v =>
    by_cases hv : v = ""
    · subst hv
      simp only [ne_eq, not_true_eq_false, if_false, Option.some.injEq]
      constructor
      · exact Or.inl
      · rintro (h | ⟨rfl, hne⟩)
        · exact h
        · exact absurd rfl hne
    · simp only [ne_eq, hv, not_false_eq_true, if_true, List.mem_insert_iff,
        Option.some.injEq]
      constructor
      · rintro (rfl | h)
        · exact Or.inr ⟨rfl, hv⟩
        · exact Or.inl h
      · rintro (h | ⟨rfl, _⟩)
        · exact Or.inr h
        · exact Or.inl rfl

/-- Membership in the teams set after one row's `addPrincipals`. -/
lemma mem_teams_addPrincipals {acc : Resolved} {row : AccessRow} {t : String} :
    t ∈ (addPrincipals acc row).teams ↔
      t ∈ acc.teams ∨ (row.team = some t ∧ t ≠ "") := by
  unfold addPrincipals
  cases hrow : row.team with
  | none => simp
  | some v =>
    by_cases hv : v = ""
    · subst hv
      simp only [ne_eq, not_true_eq_false, if_false, Option.some.injEq]
      constructor
      · exact Or.inl
      · rintro (h | ⟨rfl, hne⟩)
        · exact h
        · exact absurd rfl hne
    · simp only [ne_eq, hv, not_false_eq_true, if_true, List.mem_insert_iff,
        Option.some.injEq]
      constructor
      · rintro (rfl | h)
        · exact Or.inr ⟨rfl, hv⟩
        · exact Or.inl h
      · rintro (h | ⟨rfl, _⟩)
        · exact Or.inr h
        · exact Or.inl rfl

/-- The inner fold of `applyRow` only updates paths in the descendant list,
and there it adds exactly the row's principals. Users variant. -/
lemma mem_users_inner_fold (row : AccessRow) (u : String) :
    ∀ (ds : List Path) (acc : Path → Resolved) (p : Path),
      u ∈ ((ds.foldl
          (fun acc q => fun p => if p = q then addPrincipals (acc q) row else acc p)
          acc) p).users ↔
        u ∈ (acc p).users ∨ (p ∈ ds ∧ row.user_sub = some u ∧ u ≠ "") := by
  intro ds
  induction ds with
  | nil => intro acc p; simp
  | cons q ds ih =>
    intro acc p
    rw [List.foldl_cons, ih]
    by_cases hpq : p = q
    · subst hpq
      simp only [eq_self_iff_true, if_true, mem_users_addPrincipals, List.mem_cons]
      tauto
    · simp only [if_neg hpq, List.mem_cons]
      tauto

/-- The inner fold of `applyRow`, teams variant. -/
lemma mem_teams_inner_fold (row : AccessRow) (t : String) :
    ∀ (ds : List Path) (acc : Path → Resolved) (p : Path),
      t ∈ ((ds.foldl
          (fun acc q => fun p => if p = q then addPrincipals (acc q) row else acc p)
          acc) p).teams ↔
        t ∈ (acc p).teams ∨ (p ∈ ds ∧ row.team = some t ∧ t ≠ "") := by
  intro ds
  induction ds with
  | nil => intro acc p; simp
  | cons q ds ih =>
    intro acc p
    rw [List.foldl_cons, ih]
    by_cases hpq : p = q
    · subst hpq
      simp only [eq_self_iff_true, if_true, mem_teams_addPrincipals, List.mem_cons]
      tauto
    · simp only [if_neg hpq, List.mem_cons]
      tauto

/-- The outer fold of `get_batch_accesses_by_users_and_teams` over a row list:
a user belongs to a path's entry iff it was already there or some row
contributes it to that path. -/
lemma mem_users_outer_fold (paths : List Path) (u : String) :
    ∀ (rows : List AccessRow) (acc : Path → Resolved) (p : Path),
      u ∈ ((rows.foldl (applyRow paths) acc) p).users ↔
        u ∈ (acc p).users ∨
          ∃ row ∈ rows, p ∈ descendantsIn paths row.document_path ∧
            row.user_sub = some u ∧ u ≠ "" := by
  intro rows
  induction rows with
  | nil => intro acc p; simp
  | cons row rows ih =>
    intro acc p
    rw [List.foldl_cons, ih]
    unfold applyRow
    rw [mem_users_inner_fold]
    constructor
    · rintro ((h | h) | ⟨r, hr, hd, hu⟩)
      · exact Or.inl h
      · exact Or.inr ⟨row, List.mem_cons_self .., h.1, h.2⟩
      · exact Or.inr ⟨r, List.mem_cons_of_mem _ hr, hd, hu⟩
    · rintro (h | ⟨r, hr, hd, hu⟩)
      · exact Or.inl (Or.inl h)
      · rcases List.mem_cons.mp hr with hr | hr
        · subst hr; exact Or.inl (Or.inr ⟨hd, hu⟩)
        · exact Or.inr ⟨r, hr, hd, hu⟩

/-- The outer fold, teams variant. -/
lemma mem_teams_outer_fold (paths : List Path) (t : String) :
    ∀ (rows : List AccessRow) (acc : Path → Resolved) (p : Path),
      t ∈ ((rows.foldl (applyRow paths) acc) p).teams ↔
        t ∈ (acc p).teams ∨
          ∃ row ∈ rows, p ∈ descendantsIn paths row.document_path ∧
            row.team = some t ∧ t ≠ "" := by
  intro rows
  induction rows with
  | nil => intro acc p; simp
  | cons row rows ih =>
    intro acc p
    rw [List.foldl_cons, ih]
    unfold applyRow
    rw [mem_teams_inner_fold]
    constructor
    · rintro ((h | h) | ⟨r, hr, hd, ht⟩)
      · exact Or.inl h
      · exact Or.inr ⟨row, List.mem_cons_self .., h.1, h.2⟩
      · exact Or.inr ⟨r, List.mem_cons_of_mem _ hr, hd, ht⟩
    · rintro (h | ⟨r, hr, hd, ht⟩)
      · exact Or.inl (Or.inl h)
      · rcases List.mem_cons.mp hr with hr | hr
        · subst hr; exact Or.inl (Or.inr ⟨hd, ht⟩)
        · exact Or.inr ⟨r, hr, hd, ht⟩

/-- A path `q` is an ancestor prefix of `p` exactly when it is a nonempty
(possibly improper) prefix of `p`. -/
lemma mem_ancestorPrefixes {q p : Path} :
    q ∈ ancestorPrefixes p ↔ q ≠ [] ∧ q <+: p := by
  unfold ancestorPrefixes
  simp only [List.mem_map, List.mem_range]
  constructor
  · rintro ⟨i, hi, rfl⟩
    refine ⟨?_, List.take_prefix _ _⟩
    have : (p.take (i + 1)).length = i + 1 := by
      rw [List.length_take]
      omega
    intro hnil
    rw [hnil] at this
    simp at this
  · rintro ⟨hne, hpre⟩
    have hlen : q.length ≤ p.length := hpre.length_le
    have hpos : 0 < q.length := List.length_pos_of_ne_nil hne
    refine ⟨q.length - 1, by omega, ?_⟩
    have htake : q.length - 1 + 1 = q.length := by omega
    rw [htake]
    exact (List.prefix_iff_eq_take.mp hpre).symm

/-- Characterization of the resolved users: `u` is resolved for an input path
`p` iff some access row grants `u` on a document whose path is a nonempty
prefix of `p` (the document itself or one of its ancestors). -/
lemma mem_users_resolve {store : List AccessRow} {paths : List Path}
    {p : Path} (hp : p ∈ paths) {u : String} :
    u ∈ (get_batch_accesses_by_users_and_teams store paths p).users ↔
      ∃ row ∈ store, row.user_sub = some u ∧ u ≠ "" ∧
        row.document_path ≠ [] ∧ row.document_path <+: p := by
  unfold get_batch_accesses_by_users_and_teams
  rw [mem_users_outer_fold]
  simp only [emptyResolved, List.not_mem_nil, false_or]
  constructor
  · rintro ⟨row, hrow, hd, hu, hne⟩
    have hrow' := List.mem_filter.mp hrow
    have hd' := List.mem_filter.mp hd
    have hq : row.document_path ∈ ancestorPrefixes p := by
      simpa using hd'.2
    rcases mem_ancestorPrefixes.mp hq with ⟨hqne, hqpre⟩
    exact ⟨row, hrow'.1, hu, hne, hqne, hqpre⟩
  · rintro ⟨row, hrow, hu, hne, hqne, hqpre⟩
    have hq : row.document_path ∈ ancestorPrefixes p :=
      mem_ancestorPrefixes.mpr ⟨hqne, hqpre⟩
    refine ⟨row, ?_, ?_, hu, hne⟩
    · refine List.mem_filter.mpr ⟨hrow, ?_⟩
      simp only [decide_eq_true_eq]
      unfold ancestorKeys
      exact List.mem_flatMap.mpr ⟨p, hp, hq⟩
    · exact List.mem_filter.mpr ⟨hp, by simpa using hq⟩

/-- Characterization of the resolved teams, symmetric to `mem_users_resolve`. -/
lemma mem_teams_resolve {store : List AccessRow} {paths : List Path}
    {p : Path} (hp : p ∈ paths) {t : String} :
    t ∈ (get_batch_accesses_by_users_and_teams store paths p).teams ↔
      ∃ row ∈ store, row.team = some t ∧ t ≠ "" ∧
        row.document_path ≠ [] ∧ row.document_path <+: p := by
  unfold get_batch_accesses_by_users_and_teams
  rw [mem_teams_outer_fold]
  simp only [emptyResolved, List.not_mem_nil, false_or]
  constructor
  · rintro ⟨row, hrow, hd, ht, hne⟩
    have hrow' := List.mem_filter.mp hrow
    have hd' := List.mem_filter.mp hd
    have hq : row.document_path ∈ ancestorPrefixes p := by
      simpa using hd'.2
    rcases mem_ancestorPrefixes.mp hq with ⟨hqne, hqpre⟩
    exact ⟨row, hrow'.1, ht, hne, hqne, hqpre⟩
  · rintro ⟨row, hrow, ht, hne, hqne, hqpre⟩
    have hq : row.document_path ∈ ancestorPrefixes p :=
      mem_ancestorPrefixes.mpr ⟨hqne, hqpre⟩
    refine ⟨row, ?_, ?_, ht, hne⟩
    · refine List.mem_filter.mpr ⟨hrow, ?_⟩
      simp only [decide_eq_true_eq]
      unfold ancestorKeys
      exact List.mem_flatMap.mpr ⟨p, hp, hq⟩
    · exact List.mem_filter.mpr ⟨hp, by simpa using hq⟩

end ResolveLemmas

/-- **C1.** For every input path of a batch, access resolution returns the
union of the principals of its own direct grants and of every ancestor's
grants found in the store: a user (resp. team) is resolved for path `p` iff
some access row grants it on a document whose path is a nonempty — self or
strict-ancestor — prefix of `p`. -/
theorem C1_access_resolution_is_ancestor_union (store : List AccessRow)
    (paths : List Path) (p : Path) (hp : p ∈ paths) :
    (∀ u, u ∈ (get_batch_accesses_by_users_and_teams store paths p).users ↔
      ∃ row ∈ store, row.user_sub = some u ∧ u ≠ "" ∧
        row.document_path ≠ [] ∧ row.document_path <+: p) ∧
    (∀ t, t ∈ (get_batch_accesses_by_users_and_teams store paths p).teams ↔
      ∃ row ∈ store, row.team = some t ∧ t ≠ "" ∧
        row.document_path ≠ [] ∧ row.document_path <+: p) :=
  ⟨fun _ => mem_users_resolve hp, fun _ => mem_teams_resolve hp⟩

/-- Witness for C1 on the spec's example: grandparent `[1]` grants user `A`,
parent `[1,2]` grants user `B`, child `[1,2,3]` grants user `C`; the child
resolves users `A`, `B` and `C`, the parent resolves `A` and `B` but not `C`,
and the grandparent resolves only `A`. -/
theorem C1_access_resolution_is_ancestor_union_witness :
    ("A" ∈ (get_batch_accesses_by_users_and_teams
        [⟨[1], some "A", none⟩, ⟨[1, 2], some "B", none⟩, ⟨[1, 2, 3], some "C", none⟩]
        [[1], [1, 2], [1, 2, 3]] [1, 2, 3]).users) ∧
    ("C" ∉ (get_batch_accesses_by_users_and_teams
        [⟨[1], some "A", none⟩, ⟨[1, 2], some "B", none⟩, ⟨[1, 2, 3], some "C", none⟩]
        [[1], [1, 2], [1, 2, 3]] [1, 2]).users) := by
  constructor
  · exact ((C1_access_resolution_is_ancestor_union
        [⟨[1], some "A", none⟩, ⟨[1, 2], some "B", none⟩, ⟨[1, 2, 3], some "C", none⟩]
        [[1], [1, 2], [1, 2, 3]] [1, 2, 3] (by simp)).1 "A").mpr
      ⟨⟨[1], some "A", none⟩, by simp, rfl, by decide, by decide, by decide⟩
  · intro hmem
    rcases ((C1_access_resolution_is_ancestor_union
        [⟨[1], some "A", none⟩, ⟨[1, 2], some "B", none⟩, ⟨[1, 2, 3], some "C", none⟩]
        [[1], [1, 2], [1, 2, 3]] [1, 2] (by simp)).1 "C").mp hmem with
      ⟨row, hrow, hu, _, _, hpre⟩
    fin_cases hrow
    · simp at hu
    · simp at hu
    · revert hpre
      decide

/-- The wire format produced by `SearchIndexer.serialize_document`: the
JSON-serializable dictionary pushed to the Find backend. -/
structure IndexRecord where
  id : String
  title : String
  content : String
  depth : Nat
  path : Path
  numchild : Nat
  created_at : String
  updated_at : String
  users : List String
  groups : List String
  reach : String
  size : Nat
  is_active : Bool
deriving DecidableEq, Repr

/-- `SearchIndexer.serialize_document` from `core/services/search_indexers.py`.
The `utils.base64_yjs_to_text` helper is not part of the sources, so the
plain-text extraction is the abstract `extract` parameter; it is only applied
when the content blob is truthy, exactly as in the source. `size` is the
UTF-8 byte length of the extracted text and `is_active` is
`not bool(document.ancestors_deleted_at)`. -/
def serialize_document (extract : String → String) (document : Document)
    (accesses : Path → Resolved) : IndexRecord :=
  let doc_path := document.path
  let doc_content := document.content
  let text_content := if truthy doc_content then extract (doc_content.getD "") else ""
  { id := toString document.id
    title := document.title.getD ""
    content := text_content
    depth := document.depth
    path := doc_path
    numchild := document.numchild
    created_at := document.created_at
    updated_at := document.updated_at
    users := (accesses doc_path).users
    groups := (accesses doc_path).teams
    reach := document.computed_link_reach
    size := text_content.utf8ByteSize
    is_active := !document.ancestors_deleted_at }

/-- **C10.** An input path with zero ancestors (a root path, one segment) and
zero direct access grants resolves to empty user and team sets, and the
serializer consumes that resolution as empty `users`/`groups` rather than
failing: resolution is total on such paths. -/
theorem C10_rootless_grantless_path_resolves_empty (store : List AccessRow)
    (paths : List Path) (p : Path) (hp : p ∈ paths) (hroot : p.length = 1)
    (hnogrant : ∀ row ∈ store, row.document_path ≠ p) :
    (get_batch_accesses_by_users_and_teams store paths p).users = [] ∧
    (get_batch_accesses_by_users_and_teams store paths p).teams = [] ∧
    (∀ (extract : String → String) (d : Document), d.path = p →
      (serialize_document extract d
          (get_batch_accesses_by_users_and_teams store paths)).users = [] ∧
      (serialize_document extract d
          (get_batch_accesses_by_users_and_teams store paths)).groups = []) := by
  have key : ∀ (q : Path), q ≠ [] → q <+: p → q = p := by
    intro q hne hpre
    have hlen : q.length ≤ p.length := hpre.length_le
    have hpos : 0 < q.length := List.length_pos_of_ne_nil hne
    have hql : q.length = p.length := by omega
    have := List.prefix_iff_eq_take.mp hpre
    rw [hql, List.take_length] at this
    exact this
  have husers : (get_batch_accesses_by_users_and_teams store paths p).users = [] := by
    rw [List.eq_nil_iff_forall_not_mem]
    intro u hu
    rcases (mem_users_resolve hp).mp hu with ⟨row, hrow, _, _, hne, hpre⟩
    exact hnogrant row hrow (key _ hne hpre)
  have hteams : (get_batch_accesses_by_users_and_teams store paths p).teams = [] := by
    rw [List.eq_nil_iff_forall_not_mem]
    intro t ht
    rcases (mem_teams_resolve hp).mp ht with ⟨row, hrow, _, _, hne, hpre⟩
    exact hnogrant row hrow (key _ hne hpre)
  refine ⟨husers, hteams, ?_⟩
  intro extract d hd
  unfold serialize_document
  rw [hd]
  exact ⟨husers, hteams⟩

/-- Witness for C10: a single root path with an unrelated grant in the store
resolves to empty sets and serializes with empty `users` and `groups`. -/
theorem C10_rootless_grantless_path_resolves_empty_witness :
    (get_batch_accesses_by_users_and_teams [⟨[2], some "A", none⟩] [[1]] [1]).users = [] ∧
    (get_batch_accesses_by_users_and_teams [⟨[2], some "A", none⟩] [[1]] [1]).teams = [] ∧
    (serialize_document (fun s => s)
        ⟨1, [1], some "t", none, 1, 0, "c", "u", "restricted", false, false⟩
        (get_batch_accesses_by_users_and_teams [⟨[2], some "A", none⟩] [[1]])).users = [] := by
  have h := C10_rootless_grantless_path_resolves_empty
    [⟨[2], some "A", none⟩] [[1]] [1] (by simp) (by decide) (by decide)
  exact ⟨h.1, h.2.1,
    (h.2.2 (fun s => s)
      ⟨1, [1], some "t", none, 1, 0, "c", "u", "restricted", false, false⟩ rfl).1⟩

/-- Modelled from the spec: the document tree store and its soft-delete
operation live in `core/models.py`, which is not part of the sources. Per the
spec (§3: the ancestor-soft-delete marker is true when a document on the
path is deleted; §8: soft-deleting an ancestor makes every descendant
inactive on the next run, as exercised by
`test_services_search_indexers_serialize_document_deleted`), soft-deleting
the document at path `q` sets its soft-delete marker and sets the
ancestor-soft-delete marker on it and on every descendant. -/
def soft_delete (store : List Document) (q : Path) : List Document :=
  store.map (fun d =>
    if q = d.path then
      { d with deleted_at := true, ancestors_deleted_at := true }
    else if q.isPrefixOf d.path then
      { d with ancestors_deleted_at := true }
    else d)

/-- Modelled from the spec: the store invariant maintained by soft-delete —
a document's ancestor-soft-delete marker is set exactly when some
self-or-ancestor document in the store is soft-deleted. -/
def markersConsistent (store : List Document) : Prop :=
  ∀ d ∈ store, d.ancestors_deleted_at =
    store.any (fun a => a.deleted_at && a.path.isPrefixOf d.path)

/-- Soft-deleting a document that exists in the store preserves the marker
invariant: the updated markers again record exactly the soft-deleted
self-or-ancestor documents. (This shows the invariant assumed below is the
one the modelled store maintains, not an arbitrary hypothesis.) -/
lemma markersConsistent_soft_delete (store : List Document) (q : Path)
    (hcons : markersConsistent store) (hq : ∃ a ∈ store, a.path = q) :
    markersConsistent (soft_delete store q) := by
  intro e he
  rcases List.mem_map.mp he with ⟨d, hd, rfl⟩
  have hpath : ∀ x : Document,
      (if q = x.path then
          ({ x with deleted_at := true, ancestors_deleted_at := true } : Document)
        else if q.isPrefixOf x.path then { x with ancestors_deleted_at := true }
        else x).path = x.path := by
    intro x
    by_cases h1 : q = x.path
    · simp [h1]
    · cases h2 : q.isPrefixOf x.path <;> simp [h1, h2]
  have hdel : ∀ x : Document,
      (if q = x.path then
          ({ x with deleted_at := true, ancestors_deleted_at := true } : Document)
        else if q.isPrefixOf x.path then { x with ancestors_deleted_at := true }
        else x).deleted_at = (x.deleted_at || decide (q = x.path)) := by
    intro x
    by_cases h1 : q = x.path
    · simp [h1]
    · cases h2 : q.isPrefixOf x.path <;> simp [h1, h2]
  have hanc : ∀ x : Document,
      (if q = x.path then
          ({ x with deleted_at := true, ancestors_deleted_at := true } : Document)
        else if q.isPrefixOf x.path then { x with ancestors_deleted_at := true }
        else x).ancestors_deleted_at
        = (x.ancestors_deleted_at || q.isPrefixOf x.path) := by
    intro x
    by_cases h1 : q = x.path
    · simp [h1, List.isPrefixOf_iff_prefix]
    · cases h2 : q.isPrefixOf x.path <;> simp [h1, h2]
  unfold soft_delete
  rw [hanc d, hpath d, List.any_map]
  simp only [Function.comp_def, hdel, hpath]
  rw [hcons d hd, Bool.eq_iff_iff]
  simp only [Bool.or_eq_true, List.any_eq_true, Bool.and_eq_true,
    decide_eq_true_eq, List.isPrefixOf_iff_prefix]
  constructor
  · rintro (⟨a, ha, hadel, hapre⟩ | hqpre)
    · exact ⟨a, ha, Or.inl hadel, hapre⟩
    · rcases hq with ⟨a0, ha0, ha0q⟩
      refine ⟨a0, ha0, Or.inr ha0q.symm, ?_⟩
      rw [ha0q]
      exact hqpre
  · rintro ⟨a, ha, hcase | hcase, hapre⟩
    · exact Or.inl ⟨a, ha, hcase, hapre⟩
    · right
      rw [hcase]
      exact hapre

/-- **C6.** `serialize_document` sets
`is_active = not (soft_deleted or ancestor_soft_deleted)`: under the store
invariant for the ancestor-soft-delete marker, a document is serialized with
`is_active = false` exactly when it is itself soft-deleted or has a
soft-deleted ancestor; and soft-deleting a document makes every document it
prefixes (itself and all descendants) serialize with `is_active = false`. -/
theorem C6_is_active_not_self_or_ancestor_deleted (extract : String → String)
    (store : List Document) (accesses : Path → Resolved) (d : Document)
    (hcons : markersConsistent store) (hd : d ∈ store)
    (hup : store.Pairwise (fun x y => x.path ≠ y.path)) :
    ((serialize_document extract d accesses).is_active = false ↔
      (d.deleted_at = true ∨ ∃ a ∈ store, a.deleted_at = true ∧
        a.path <+: d.path ∧ a.path ≠ d.path)) ∧
    (∀ (q : Path), ∀ e ∈ soft_delete store q, q <+: e.path →
      (serialize_document extract e accesses).is_active = false) := by
  constructor
  · have hmark := hcons d hd
    have hact : (serialize_document extract d accesses).is_active =
        !d.ancestors_deleted_at := rfl
    have hnb : ∀ b : Bool, ((!b) = false ↔ b = true) := by decide
    rw [hact, hnb, hmark, List.any_eq_true]
    constructor
    · rintro ⟨a, ha, hcond⟩
      have hcond' : a.deleted_at = true ∧ a.path.isPrefixOf d.path = true := by
        simpa using hcond
      rcases hcond' with ⟨hdel, hpre⟩
      have hpre' : a.path <+: d.path := List.isPrefixOf_iff_prefix.mp hpre
      by_cases hpath : a.path = d.path
      · have hsymm : Symmetric (fun x y : Document => x.path ≠ y.path) :=
          fun _ _ h => Ne.symm h
        by_cases haq : a = d
        · exact Or.inl (haq ▸ hdel)
        · exact absurd hpath (hup.forall hsymm ha hd haq)
      · exact Or.inr ⟨a, ha, hdel, hpre', hpath⟩
    · rintro (hdel | ⟨a, ha, hdel, hpre, _⟩)
      · exact ⟨d, hd, by simp [hdel, List.isPrefixOf_iff_prefix]⟩
      · exact ⟨a, ha, by simp [hdel, List.isPrefixOf_iff_prefix, hpre]⟩
  · intro q e he hqe
    have hm : e.ancestors_deleted_at = true := by
      rcases List.mem_map.mp he with ⟨x, hx, rfl⟩
      by_cases hq : q = x.path
      · simp [hq]
      · cases hp : q.isPrefixOf x.path with
        | true => simp [hq, hp]
        | false =>
          exfalso
          have hqe' : q <+: x.path := by simpa [hq, hp] using hqe
          have hcontra := List.isPrefixOf_iff_prefix.mpr hqe'
          rw [hp] at hcontra
          exact Bool.false_ne_true hcontra
    have hact : (serialize_document extract e accesses).is_active =
        !e.ancestors_deleted_at := rfl
    rw [hact, hm]
    rfl

/-- Witness for C6: in a two-document store (root `[1]`, child `[1,2]`), with
consistent markers, soft-deleting the root serializes the child with
`is_active = false`. -/
theorem C6_is_active_not_self_or_ancestor_deleted_witness :
    (serialize_document (fun s => s)
      ⟨2, [1, 2], some "c", none, 2, 0, "c2", "u2", "restricted", false, true⟩
      (fun _ => emptyResolved)).is_active = false := by
  have h := C6_is_active_not_self_or_ancestor_deleted (fun s => s)
    [⟨1, [1], some "p", none, 1, 1, "c1", "u1", "restricted", false, false⟩,
     ⟨2, [1, 2], some "c", none, 2, 0, "c2", "u2", "restricted", false, false⟩]
    (fun _ => emptyResolved)
    ⟨2, [1, 2], some "c", none, 2, 0, "c2", "u2", "restricted", false, false⟩
    (by unfold markersConsistent; decide) (by simp) (by simp)
  exact h.2 [1]
    ⟨2, [1, 2], some "c", none, 2, 0, "c2", "u2", "restricted", false, true⟩
    (by unfold soft_delete; decide) (by decide)

/-- The page query of `BaseDocumentIndexer.index`:
`queryset.filter(id__gt=last_id).order_by("id")[:batch_size]`. The queryset
is a list kept in ascending-identifier order (the table as read under
`order_by("id")`), so the ordered page is the first `batch_size` documents
whose identifier is above the cursor. -/
def fetchPage (queryset : List Document) (last_id batch_size : Nat) :
    List Document :=
  (queryset.filter (fun d => last_id < d.id)).take batch_size

/-- The `while True:` loop of `BaseDocumentIndexer.index`, with explicit fuel
standing for the loop's (always sufficient) iteration budget: each nonempty
page strictly increases `last_id` and therefore strictly shrinks the
remaining filtered queryset, so `queryset.length + 1` iterations always
reach the empty page. Breaks when the fetched page is empty; otherwise
resolves the batch's accesses, serializes the documents with truthy content
or title, pushes the batch, accumulates the count and advances the cursor to
the page's last identifier. Returns the pushed batches and the count. -/
def indexAux (extract : String → String) (store : List AccessRow) :
    Nat → List Document → Nat → Nat → List (List IndexRecord) × Nat
  | 0, _, _, _ => ([], 0)
  | fuel + 1, queryset, last_id, batch_size =>
    let documents_batch := fetchPage queryset last_id batch_size
    match documents_batch.getLast? with
    | none => ([], 0)
    | some lastDoc =>
      let accesses := get_batch_accesses_by_users_and_teams store
        (documents_batch.map (fun d => d.path))
      let serialized_batch :=
        (documents_batch.filter (fun d => truthy d.content || truthy d.title)).map
          (fun d => serialize_document extract d accesses)
      let rest := indexAux extract store fuel queryset lastDoc.id batch_size
      (serialized_batch :: rest.1, serialized_batch.length + rest.2)

/-- `BaseDocumentIndexer.index`: run the batching loop from cursor `0` over
the whole queryset. -/
def index (extract : String → String) (store : List AccessRow)
    (queryset : List Document) (batch_size : Nat) :
    List (List IndexRecord) × Nat :=
  indexAux extract store (queryset.length + 1) queryset 0 batch_size

/-- `(serialize_document ...)` keeps the document's identifier, stringified. -/
lemma serialize_document_id (extract : String → String) (d : Document)
    (accesses : Path → Resolved) :
    (serialize_document extract d accesses).id = toString d.id := rfl

/-- Every record in every batch pushed by the indexing loop comes from a
queryset document with truthy content or title: documents with neither are
never pushed. -/
lemma indexAux_batches_from_kept_docs (extract : String → String)
    (store : List AccessRow) :
    ∀ (fuel : Nat) (queryset : List Document) (last_id batch_size : Nat),
      ∀ batch ∈ (indexAux extract store fuel queryset last_id batch_size).1,
        ∀ rec ∈ batch, ∃ d acc, d ∈ queryset ∧
          (truthy d.content || truthy d.title) = true ∧
          rec = serialize_document extract d acc := by
  intro fuel
  induction fuel with
  | zero =>
    intro qs last_id bs batch hb
    simp [indexAux] at hb
  | succ fuel ih =>
    intro qs last_id bs batch hb
    rw [indexAux] at hb
    rcases hlast : (fetchPage qs last_id bs).getLast? with _ | lastDoc
    · rw [hlast] at hb
      simp at hb
    · rw [hlast] at hb
      simp only [List.mem_cons] at hb
      rcases hb with hb | hb
      · subst hb
        intro rec hrec
        rcases List.mem_map.mp hrec with ⟨d, hd, rfl⟩
        have hd' := List.mem_filter.mp hd
        refine ⟨d, _, ?_, hd'.2, rfl⟩
        have : d ∈ fetchPage qs last_id bs := hd'.1
        unfold fetchPage at this
        exact List.mem_of_mem_filter (List.mem_of_mem_take this)
      · exact ih qs lastDoc.id bs batch hb

/-- **C8.** In every batch push by the indexing loop, a document whose
content and title are both empty or absent is excluded from the pushed batch
and from the returned count, while a document with empty content but a
non-empty title is included, serialized with content equal to the empty
string: every pushed record comes from a document with truthy content or
title, and on a two-document corpus (one empty, one only titled) exactly the
titled document is pushed, with `content = ""` and count 1. -/
theorem C8_empty_documents_excluded_titled_included (extract : String → String)
    (store : List AccessRow) (queryset : List Document)
    (fuel last_id batch_size : Nat) (de dt : Document)
    (hde_c : truthy de.content = false) (hde_t : truthy de.title = false)
    (hdt_c : truthy dt.content = false) (hdt_t : truthy dt.title = true)
    (hide : de.id = 1) (hidt : dt.id = 2) :
    (∀ batch ∈ (indexAux extract store fuel queryset last_id batch_size).1,
      ∀ rec ∈ batch, ∃ d acc, d ∈ queryset ∧
        (truthy d.content || truthy d.title) = true ∧
        rec = serialize_document extract d acc) ∧
    ((index extract store [de, dt] 2).1 =
      [[serialize_document extract dt
        (get_batch_accesses_by_users_and_teams store [de.path, dt.path])]]) ∧
    ((index extract store [de, dt] 2).2 = 1) ∧
    ((serialize_document extract dt
        (get_batch_accesses_by_users_and_teams store [de.path, dt.path])).content
      = "") := by
  refine ⟨indexAux_batches_from_kept_docs extract store fuel queryset
    last_id batch_size, ?_, ?_, ?_⟩
  · simp [index, indexAux, fetchPage, hide, hidt, hde_c, hde_t, hdt_c, hdt_t]
  · simp [index, indexAux, fetchPage, hide, hidt, hde_c, hde_t, hdt_c, hdt_t]
  · simp [serialize_document, hdt_c]

/-- Witness for C8 on a concrete corpus: the document with no content and no
title is dropped, the titled one is pushed with empty content, count 1. -/
theorem C8_empty_documents_excluded_titled_included_witness :
    ((index (fun s => s) []
        [⟨1, [1], none, none, 1, 0, "c1", "u1", "restricted", false, false⟩,
         ⟨2, [2], some "t", none, 1, 0, "c2", "u2", "restricted", false, false⟩] 2).1 =
      [[serialize_document (fun s => s)
        ⟨2, [2], some "t", none, 1, 0, "c2", "u2", "restricted", false, false⟩
        (get_batch_accesses_by_users_and_teams [] [[1], [2]])]]) ∧
    ((index (fun s => s) []
        [⟨1, [1], none, none, 1, 0, "c1", "u1", "restricted", false, false⟩,
         ⟨2, [2], some "t", none, 1, 0, "c2", "u2", "restricted", false, false⟩] 2).2 = 1) := by
  have h := C8_empty_documents_excluded_titled_included (fun s => s) [] [] 0 0 0
    ⟨1, [1], none, none, 1, 0, "c1", "u1", "restricted", false, false⟩
    ⟨2, [2], some "t", none, 1, 0, "c2", "u2", "restricted", false, false⟩
    rfl rfl rfl (by decide) rfl rfl
  exact ⟨h.2.1, h.2.2.1⟩

/-- **C5.** The indexing loop streams the corpus in ascending-identifier
order in fixed-size pages driven by a last-seen-identifier cursor and stops
on the first empty page: over a corpus of five documents (identifiers 1–5),
all carrying searchable content or a title, with batch size 2 it performs
exactly three pushes of sizes 2, 2 and 1, the pushed records are exactly the
five documents' serializations in order (so the union of pushed identifiers
is the whole corpus), and the returned count is 5. -/
theorem C5_batch_indexer_pages_2_2_1 (extract : String → String)
    (store : List AccessRow) (d1 d2 d3 d4 d5 : Document)
    (h1 : d1.id = 1) (h2 : d2.id = 2) (h3 : d3.id = 3) (h4 : d4.id = 4)
    (h5 : d5.id = 5)
    (k1 : (truthy d1.content || truthy d1.title) = true)
    (k2 : (truthy d2.content || truthy d2.title) = true)
    (k3 : (truthy d3.content || truthy d3.title) = true)
    (k4 : (truthy d4.content || truthy d4.title) = true)
    (k5 : (truthy d5.content || truthy d5.title) = true) :
    ((index extract store [d1, d2, d3, d4, d5] 2).1.map List.length
      = [2, 2, 1]) ∧
    ((index extract store [d1, d2, d3, d4, d5] 2).1.flatten.map IndexRecord.id
      = [d1, d2, d3, d4, d5].map (fun d => toString d.id)) ∧
    ((index extract store [d1, d2, d3, d4, d5] 2).2 = 5) := by
  refine ⟨?_, ?_, ?_⟩ <;>
    simp [index, indexAux, fetchPage, h1, h2, h3, h4, h5, k1, k2, k3, k4, k5,
      serialize_document_id]

/-- Witness for C5 on five concrete titled documents. -/
theorem C5_batch_indexer_pages_2_2_1_witness :
    ((index (fun s => s) []
        [⟨1, [1], some "a", none, 1, 0, "c", "u", "restricted", false, false⟩,
         ⟨2, [2], some "b", none, 1, 0, "c", "u", "restricted", false, false⟩,
         ⟨3, [3], some "c", none, 1, 0, "c", "u", "restricted", false, false⟩,
         ⟨4, [4], some "d", none, 1, 0, "c", "u", "restricted", false, false⟩,
         ⟨5, [5], some "e", none, 1, 0, "c", "u", "restricted", false, false⟩] 2).1.map
      List.length = [2, 2, 1]) ∧
    ((index (fun s => s) []
        [⟨1, [1], some "a", none, 1, 0, "c", "u", "restricted", false, false⟩,
         ⟨2, [2], some "b", none, 1, 0, "c", "u", "restricted", false, false⟩,
         ⟨3, [3], some "c", none, 1, 0, "c", "u", "restricted", false, false⟩,
         ⟨4, [4], some "d", none, 1, 0, "c", "u", "restricted", false, false⟩,
         ⟨5, [5], some "e", none, 1, 0, "c", "u", "restricted", false, false⟩] 2).2 = 5) := by
  have h := C5_batch_indexer_pages_2_2_1 (fun s => s) []
    ⟨1, [1], some "a", none, 1, 0, "c", "u", "restricted", false, false⟩
    ⟨2, [2], some "b", none, 1, 0, "c", "u", "restricted", false, false⟩
    ⟨3, [3], some "c", none, 1, 0, "c", "u", "restricted", false, false⟩
    ⟨4, [4], some "d", none, 1, 0, "c", "u", "restricted", false, false⟩
    ⟨5, [5], some "e", none, 1, 0, "c", "u", "restricted", false, false⟩
    rfl rfl rfl rfl rfl (by decide) (by decide) (by decide) (by decide) (by decide)
  exact ⟨h.1, h.2.2⟩

namespace TasksSearch

/-- `indexer_throttle_acquire` from `core/tasks/search.py`: `cache.add` on the
per-document throttle flag — set the flag and return `true` if it was absent,
do nothing and return `false` if it exists. The optional redis lock only makes
the check-and-set atomic; the atomic add itself is what is modeled. The flag
lives until its TTL (one cooldown window); within one window it never
expires, so the state is a plain boolean. Returns (new flag, acquired). -/
def indexer_throttle_acquire (flag : Bool) : Bool × Bool :=
  if flag then (flag, false) else (true, true)

/-- The coordinator state of the flag strategy: the cache flag for one
document key, and the queue of deferred jobs (each job record holds only the
document id passed to `apply_async`). -/
structure ThrottleState where
  flag : Bool
  jobs : List Nat
deriving DecidableEq, Repr

/-- `trigger_document_indexer(document)` from `core/tasks/search.py`: no-op
when no indexer class is configured; otherwise only the caller whose
`indexer_throttle_acquire` succeeded schedules the deferred
`document_indexer_task` with the document's primary key. -/
def trigger_document_indexer (configuredClass : Bool) (s : ThrottleState)
    (document : Document) : ThrottleState :=
  if !configuredClass then s
  else
    let acq := indexer_throttle_acquire s.flag
    if acq.2 then { flag := acq.1, jobs := s.jobs ++ [document.id] }
    else { s with flag := acq.1 }

/-- `document_indexer_task(document_id)` from `core/tasks/search.py`: no-op if
the indexer is not configured; re-fetch the document by primary key at
execution time, skipping silently if it no longer exists
(`Document.DoesNotExist` is caught); otherwise resolve the singleton path's
accesses, serialize and push. Returns the pushed records. -/
def document_indexer_task (extract : String → String) (configured : Bool)
    (accessStore : List AccessRow) (documents : List Document)
    (document_id : Nat) : List IndexRecord :=
  if !configured then []
  else
    match documents.find? (fun d => d.id = document_id) with
    | none => []
    | some doc =>
      [serialize_document extract doc
        (get_batch_accesses_by_users_and_teams accessStore [doc.path])]

/-- A burst of triggers: fold `trigger_document_indexer` over the successive
states of the mutated document. -/
def triggerSeq (configured : Bool) (s : ThrottleState)
    (versions : List Document) : ThrottleState :=
  versions.foldl (trigger_document_indexer configured) s

/-- Execute all scheduled deferred jobs against the store as it is at
execution time, collecting every pushed record. -/
def runJobs (extract : String → String) (configured : Bool)
    (accessStore : List AccessRow) (documents : List Document)
    (jobs : List Nat) : List IndexRecord :=
  jobs.flatMap (document_indexer_task extract configured accessStore documents)

/-- Once the throttle flag is set, further triggers leave the coordinator
state unchanged (no new job is scheduled). -/
lemma triggerSeq_flag_set :
    ∀ (versions : List Document) (s : ThrottleState), s.flag = true →
      triggerSeq true s versions = s := by
  intro versions
  induction versions with
  | nil => intro s _; rfl
  | cons v rest ih =>
    intro s hs
    have hstep : trigger_document_indexer true s v = s := by
      unfold trigger_document_indexer indexer_throttle_acquire
      cases s with
      | mk flag jobs =>
        simp only at hs
        subst hs
        simp
    calc triggerSeq true s (v :: rest)
        = triggerSeq true (trigger_document_indexer true s v) rest := rfl
      _ = triggerSeq true s rest := by rw [hstep]
      _ = s := ih s hs

/-- A nonempty burst on one document key schedules exactly one deferred job:
the first trigger acquires the flag, every later one is refused. -/
lemma triggerSeq_single_job (versions : List Document) (pk : Nat)
    (hne : versions ≠ []) (hids : ∀ v ∈ versions, v.id = pk) :
    triggerSeq true ⟨false, []⟩ versions = ⟨true, [pk]⟩ := by
  cases versions with
  | nil => exact absurd rfl hne
  | cons v rest =>
    have hv : v.id = pk := hids v (List.mem_cons_self ..)
    have hstep : trigger_document_indexer true ⟨false, []⟩ v
        = ⟨true, [pk]⟩ := by
      unfold trigger_document_indexer indexer_throttle_acquire
      simp [hv]
    calc triggerSeq true ⟨false, []⟩ (v :: rest)
        = triggerSeq true (trigger_document_indexer true ⟨false, []⟩ v) rest := rfl
      _ = triggerSeq true ⟨true, [pk]⟩ rest := by rw [hstep]
      _ = ⟨true, [pk]⟩ := triggerSeq_flag_set rest _ rfl

end TasksSearch

namespace TasksFind

/-- `incr_counter` from `core/tasks/find.py`: `cache.incr`, which raises
`ValueError` on a missing key, caught and turned into `cache.set(key, 1)`.
Returns (new cache value, returned count). -/
def incr_counter : Option Int → Option Int × Int
  | some c => (some (c + 1), c + 1)
  | none => (some 1, 1)

/-- `decr_counter` from `core/tasks/find.py`: `cache.decr`, which raises
`ValueError` on a missing key, caught and turned into `cache.set(key, 0)`.
Returns (new cache value, returned count). -/
def decr_counter : Option Int → Option Int × Int
  | some c => (some (c - 1), c - 1)
  | none => (some 0, 0)

/-- The coordinator state of the counter strategy: the debounce counter for
one document key, and the queue of deferred jobs (each holding only the
document id passed to `apply_async`). -/
structure DebounceState where
  counter : Option Int
  jobs : List Nat
deriving DecidableEq, Repr

/-- `trigger_document_indexer(document)` from `core/tasks/find.py` (the
post-commit path): increment the debounce counter and schedule the deferred
`document_indexer_task` with the document's primary key, unconditionally. -/
def trigger_document_indexer (s : DebounceState) (document : Document) :
    DebounceState :=
  let c := incr_counter s.counter
  { counter := c.1, jobs := s.jobs ++ [document.id] }

/-- `document_indexer_task(document_id)` from `core/tasks/find.py`: decrement
the debounce counter and skip if the result is still positive — only the last
job of the burst proceeds; the survivor re-fetches the document by primary
key with `Document.objects.get`, which raises `Document.DoesNotExist`
(uncaught in this revision) if the document no longer exists, then resolves,
serializes and pushes. Returns (new counter, error or pushed records). -/
def document_indexer_task (extract : String → String)
    (accessStore : List AccessRow) (documents : List Document)
    (counter : Option Int) (document_id : Nat) :
    Option Int × Except String (List IndexRecord) :=
  let dc := decr_counter counter
  if dc.2 > 0 then (dc.1, .ok [])
  else
    match documents.find? (fun d => d.id = document_id) with
    | none => (dc.1, .error "Document.DoesNotExist")
    | some doc =>
      (dc.1, .ok [serialize_document extract doc
        (get_batch_accesses_by_users_and_teams accessStore [doc.path])])

/-- A burst of triggers under the counter strategy. -/
def triggerSeq (s : DebounceState) (versions : List Document) : DebounceState :=
  versions.foldl trigger_document_indexer s

/-- Execute the scheduled deferred jobs in order against the store as it is
at execution time, threading the shared counter; an uncaught exception stops
the run with that error. -/
def runJobs (extract : String → String) (accessStore : List AccessRow)
    (documents : List Document) :
    Option Int → List Nat → Option Int × Except String (List IndexRecord)
  | counter, [] => (counter, .ok [])
  | counter, pk :: rest =>
    match document_indexer_task extract accessStore documents counter pk with
    | (c1, .error e) => (c1, .error e)
    | (c1, .ok recs) =>
      match runJobs extract accessStore documents c1 rest with
      | (c2, .error e) => (c2, .error e)
      | (c2, .ok more) => (c2, .ok (recs ++ more))

/-- Triggers starting from a live counter add to it and append their jobs. -/
lemma triggerSeq_some :
    ∀ (versions : List Document) (c : Int) (jobs : List Nat),
      triggerSeq ⟨some c, jobs⟩ versions =
        ⟨some (c + versions.length), jobs ++ versions.map (fun v => v.id)⟩ := by
  intro versions
  induction versions with
  | nil => intro c jobs; simp [triggerSeq]
  | cons v rest ih =>
    intro c jobs
    have hstep : trigger_document_indexer ⟨some c, jobs⟩ v
        = ⟨some (c + 1), jobs ++ [v.id]⟩ := rfl
    calc triggerSeq ⟨some c, jobs⟩ (v :: rest)
        = triggerSeq ⟨some (c + 1), jobs ++ [v.id]⟩ rest := by
          show triggerSeq (trigger_document_indexer ⟨some c, jobs⟩ v) rest = _
          rw [hstep]
      _ = ⟨some ((c + 1) + rest.length), (jobs ++ [v.id]) ++ rest.map (fun v => v.id)⟩ :=
          ih (c + 1) (jobs ++ [v.id])
      _ = ⟨some (c + (v :: rest).length), jobs ++ (v :: rest).map (fun v => v.id)⟩ := by
          simp only [List.map_cons, List.length_cons, List.append_assoc,
            List.singleton_append]
          congr 1
          push_cast
          ring_nf

/-- A nonempty burst from an absent counter leaves the counter at the burst
length and schedules one job per trigger. -/
lemma triggerSeq_from_empty (versions : List Document) (hne : versions ≠ []) :
    triggerSeq ⟨none, []⟩ versions =
      ⟨some versions.length, versions.map (fun v => v.id)⟩ := by
  cases versions with
  | nil => exact absurd rfl hne
  | cons v rest =>
    have hstep : trigger_document_indexer ⟨none, []⟩ v = ⟨some 1, [v.id]⟩ := rfl
    calc triggerSeq ⟨none, []⟩ (v :: rest)
        = triggerSeq ⟨some 1, [v.id]⟩ rest := by
          show triggerSeq (trigger_document_indexer ⟨none, []⟩ v) rest = _
          rw [hstep]
      _ = ⟨some (1 + rest.length), [v.id] ++ rest.map (fun v => v.id)⟩ :=
          triggerSeq_some rest 1 [v.id]
      _ = ⟨some ((v :: rest).length), (v :: rest).map (fun v => v.id)⟩ := by
          simp [add_comm]

end TasksFind

/-- Running the find-strategy jobs of a burst of `k` triggers with the
counter at `k`: every job but the last decrements and skips, the last one
(decrement reaching 0) re-fetches and pushes exactly once. -/
lemma TasksFind_runJobs_replicate (extract : String → String)
    (accessStore : List AccessRow) (documents : List Document) (d : Document)
    (hfind : documents.find? (fun x => x.id = d.id) = some d) :
    ∀ (k : Nat), 1 ≤ k →
      (TasksFind.runJobs extract accessStore documents (some (k : Int))
        (List.replicate k d.id)).2 =
        .ok [serialize_document extract d
          (get_batch_accesses_by_users_and_teams accessStore [d.path])] := by
  intro k
  induction k with
  | zero => intro h; omega
  | succ k ih =>
    intro _
    by_cases hk : k = 0
    · subst hk
      simp [TasksFind.runJobs, TasksFind.document_indexer_task,
        TasksFind.decr_counter, hfind]
    · have hk1 : 1 ≤ k := Nat.one_le_iff_ne_zero.mpr hk
      have hcast : ((k + 1 : Nat) : Int) - 1 = (k : Int) := by push_cast; ring_nf
      have hstep : TasksFind.document_indexer_task extract accessStore documents
          (some ((k + 1 : Nat) : Int)) d.id = (some ((k : Nat) : Int), .ok []) := by
        unfold TasksFind.document_indexer_task TasksFind.decr_counter
        simp only [hcast]
        have hpos2 : (k : Int) > 0 := by exact_mod_cast hk1
        rw [if_pos hpos2]
      rw [show List.replicate (k + 1) d.id = d.id :: List.replicate k d.id from rfl]
      show (match TasksFind.document_indexer_task extract accessStore documents
          (some ((k + 1 : Nat) : Int)) d.id with
        | (c1, Except.error e) => (c1, Except.error e)
        | (c1, Except.ok recs) =>
          match TasksFind.runJobs extract accessStore documents c1
              (List.replicate k d.id) with
          | (c2, Except.error e) => (c2, Except.error e)
          | (c2, Except.ok more) => (c2, Except.ok (recs ++ more))).2 = _
      rw [hstep]
      have hrec := ih hk1
      rcases hrun : TasksFind.runJobs extract accessStore documents
          (some (k : Int)) (List.replicate k d.id) with ⟨c2, r2⟩
      rw [hrun] at hrec
      simp only at hrec
      rw [hrec] at hrun
      dsimp only
      rw [hrun]
      simp

/-- **C2.** For one document and every `N ≥ 1` triggers within one cooldown
window, exactly one push is executed once all scheduled deferred jobs have
run, under both strategies: with the flag throttle only the first caller's
atomic add succeeds so exactly one job is scheduled and pushes; with the
counter debounce all `N` jobs are scheduled but only the one whose decrement
reaches 0 pushes. -/
theorem C2_burst_of_n_triggers_one_push (extract : String → String)
    (accessStore : List AccessRow) (d : Document) (N : Nat) (hN : 1 ≤ N) :
    ((TasksSearch.triggerSeq true ⟨false, []⟩ (List.replicate N d)).jobs
      = [d.id]) ∧
    (TasksSearch.runJobs extract true accessStore [d]
        (TasksSearch.triggerSeq true ⟨false, []⟩ (List.replicate N d)).jobs =
      [serialize_document extract d
        (get_batch_accesses_by_users_and_teams accessStore [d.path])]) ∧
    ((TasksFind.triggerSeq ⟨none, []⟩ (List.replicate N d)).jobs.length = N) ∧
    ((TasksFind.runJobs extract accessStore [d]
        (TasksFind.triggerSeq ⟨none, []⟩ (List.replicate N d)).counter
        (TasksFind.triggerSeq ⟨none, []⟩ (List.replicate N d)).jobs).2 =
      .ok [serialize_document extract d
        (get_batch_accesses_by_users_and_teams accessStore [d.path])]) := by
  have hne : List.replicate N d ≠ [] := by
    intro h
    have := congrArg List.length h
    simp at this
    omega
  have hids : ∀ v ∈ List.replicate N d, v.id = d.id := fun v hv => by
    rw [List.eq_of_mem_replicate hv]
  have hfind : [d].find? (fun x => x.id = d.id) = some d := by simp
  have hflag := TasksSearch.triggerSeq_single_job (List.replicate N d) d.id hne hids
  have hdeb := TasksFind.triggerSeq_from_empty (List.replicate N d) hne
  refine ⟨by rw [hflag], ?_, ?_, ?_⟩
  · rw [hflag]
    simp [TasksSearch.runJobs, TasksSearch.document_indexer_task, hfind]
  · rw [hdeb]
    simp
  · rw [hdeb]
    simp only [List.map_replicate, List.length_replicate]
    exact TasksFind_runJobs_replicate extract accessStore [d] d hfind N hN

/-- Witness for C2 at `N = 3` on a concrete document: one push under each
strategy. -/
theorem C2_burst_of_n_triggers_one_push_witness :
    (TasksSearch.runJobs (fun s => s) true []
        [⟨1, [1], some "t", none, 1, 0, "c", "u", "restricted", false, false⟩]
        (TasksSearch.triggerSeq true ⟨false, []⟩ (List.replicate 3
          ⟨1, [1], some "t", none, 1, 0, "c", "u", "restricted", false, false⟩)).jobs =
      [serialize_document (fun s => s)
        ⟨1, [1], some "t", none, 1, 0, "c", "u", "restricted", false, false⟩
        (get_batch_accesses_by_users_and_teams [] [[1]])]) ∧
    ((TasksFind.runJobs (fun s => s) []
        [⟨1, [1], some "t", none, 1, 0, "c", "u", "restricted", false, false⟩]
        (TasksFind.triggerSeq ⟨none, []⟩ (List.replicate 3
          ⟨1, [1], some "t", none, 1, 0, "c", "u", "restricted", false, false⟩)).counter
        (TasksFind.triggerSeq ⟨none, []⟩ (List.replicate 3
          ⟨1, [1], some "t", none, 1, 0, "c", "u", "restricted", false, false⟩)).jobs).2 =
      .ok [serialize_document (fun s => s)
        ⟨1, [1], some "t", none, 1, 0, "c", "u", "restricted", false, false⟩
        (get_batch_accesses_by_users_and_teams [] [[1]])]) := by
  have h := C2_burst_of_n_triggers_one_push (fun s => s) []
    ⟨1, [1], some "t", none, 1, 0, "c", "u", "restricted", false, false⟩ 3
    (by decide)
  exact ⟨h.2.1, h.2.2.2⟩

/-- **C3.** For every burst of triggers on one document within one cooldown
window, the single executed push reflects the document state as of the last
trigger, not an intermediate one, under both strategies: the scheduled job
records only the document's primary key and re-fetches the document from the
store at execution time, so for arbitrary intermediate versions the pushed
record is the serialization of the final state. -/
theorem C3_push_reflects_last_trigger_state (extract : String → String)
    (accessStore : List AccessRow) (versions : List Document) (d : Document)
    (hne : versions ≠ []) (hlast : versions.getLast hne = d)
    (hids : ∀ v ∈ versions, v.id = d.id) :
    (TasksSearch.runJobs extract true accessStore [d]
        (TasksSearch.triggerSeq true ⟨false, []⟩ versions).jobs =
      [serialize_document extract d
        (get_batch_accesses_by_users_and_teams accessStore [d.path])]) ∧
    ((TasksFind.runJobs extract accessStore [d]
        (TasksFind.triggerSeq ⟨none, []⟩ versions).counter
        (TasksFind.triggerSeq ⟨none, []⟩ versions).jobs).2 =
      .ok [serialize_document extract d
        (get_batch_accesses_by_users_and_teams accessStore [d.path])]) := by
  have hfind : [d].find? (fun x => x.id = d.id) = some d := by simp
  have hflag := TasksSearch.triggerSeq_single_job versions d.id hne hids
  have hdeb := TasksFind.triggerSeq_from_empty versions hne
  have hmap : versions.map (fun v => v.id) = List.replicate versions.length d.id := by
    rw [List.eq_replicate_iff]
    refine ⟨by simp, ?_⟩
    intro b hb
    rcases List.mem_map.mp hb with ⟨v, hv, rfl⟩
    exact hids v hv
  have hlen : 1 ≤ versions.length := by
    have := List.length_pos_of_ne_nil hne
    omega
  constructor
  · rw [hflag]
    simp [TasksSearch.runJobs, TasksSearch.document_indexer_task, hfind]
  · rw [hdeb]
    simp only [hmap]
    exact TasksFind_runJobs_replicate extract accessStore [d] d hfind
      versions.length hlen

/-- Witness for C3: two successive versions of document 1 with different
titles; the push carries the serialization of the second (last) version. -/
theorem C3_push_reflects_last_trigger_state_witness :
    (TasksSearch.runJobs (fun s => s) true []
        [⟨1, [1], some "after", none, 1, 0, "c", "u", "restricted", false, false⟩]
        (TasksSearch.triggerSeq true ⟨false, []⟩
          [⟨1, [1], some "before", none, 1, 0, "c", "u", "restricted", false, false⟩,
           ⟨1, [1], some "after", none, 1, 0, "c", "u", "restricted", false, false⟩]).jobs =
      [serialize_document (fun s => s)
        ⟨1, [1], some "after", none, 1, 0, "c", "u", "restricted", false, false⟩
        (get_batch_accesses_by_users_and_teams [] [[1]])]) ∧
    ((TasksFind.runJobs (fun s => s) []
        [⟨1, [1], some "after", none, 1, 0, "c", "u", "restricted", false, false⟩]
        (TasksFind.triggerSeq ⟨none, []⟩
          [⟨1, [1], some "before", none, 1, 0, "c", "u", "restricted", false, false⟩,
           ⟨1, [1], some "after", none, 1, 0, "c", "u", "restricted", false, false⟩]).counter
        (TasksFind.triggerSeq ⟨none, []⟩
          [⟨1, [1], some "before", none, 1, 0, "c", "u", "restricted", false, false⟩,
           ⟨1, [1], some "after", none, 1, 0, "c", "u", "restricted", false, false⟩]).jobs).2 =
      .ok [serialize_document (fun s => s)
        ⟨1, [1], some "after", none, 1, 0, "c", "u", "restricted", false, false⟩
        (get_batch_accesses_by_users_and_teams [] [[1]])]) :=
  C3_push_reflects_last_trigger_state (fun s => s) []
    [⟨1, [1], some "before", none, 1, 0, "c", "u", "restricted", false, false⟩,
     ⟨1, [1], some "after", none, 1, 0, "c", "u", "restricted", false, false⟩]
    ⟨1, [1], some "after", none, 1, 0, "c", "u", "restricted", false, false⟩
    (by decide) (by decide) (by decide)

/-- **C7.** When the deferred job executes for a document that no longer
exists, the flag-strategy job of `core/tasks/search.py` completes silently
as a no-op (it pushes nothing and raises nothing), but the counter-strategy
job of `core/tasks/find.py` — whose `Document.objects.get` is not wrapped in
a try/except — raises `Document.DoesNotExist` for the surviving job of the
burst (a job whose decrement is still positive skips before fetching and
stays silent). The claim as stated holds for the former and fails for the
latter. -/
theorem C7_missing_document_search_noop_find_raises :
    (TasksSearch.document_indexer_task (fun s => s) true [] [] 7 = []) ∧
    ((TasksFind.document_indexer_task (fun s => s) [] [] (some 1) 7).2 =
      .error "Document.DoesNotExist") ∧
    ((TasksFind.document_indexer_task (fun s => s) [] [] (some 2) 7).2 =
      .ok []) :=
  ⟨rfl, rfl, rfl⟩

/-- Modelled from the spec: the search view (the SearchOrchestrator of spec
§4.6) is not part of the sources — only its tests are. Per the spec, the
external engine returns an ordered list of document identifiers, and the view
intersects it with the requester's currently authorized, non-deleted document
set, preserving the external engine's ordering and never re-sorting. -/
def reconcile (externalIds : List String) (authorized : List String) :
    List String :=
  externalIds.filter (fun i => decide (i ∈ authorized))

/-- The search view's error conditions distinguished by spec §4.6/§7:
a malformed page parameter is a validation error (bad request), a page
beyond the filtered result count is a no-such-page condition (not found). -/
inductive SearchError where
  | badRequest
  | notFound
deriving DecidableEq, Repr

/-- The page parameter as received: either unparseable or an integer. -/
inductive PageParam where
  | malformed
  | page (n : Int)
deriving DecidableEq, Repr

/-- Modelled from the spec: pagination of the authorization-filtered result
list (spec §4.6 step 5 and §7). The page count is derived from the filtered
count and the page size (at least one page); a malformed page parameter maps
to a bad-request condition, a page out of range for the filtered count maps
to a not-found condition rather than an empty success page; otherwise the
page's slice of the filtered list is returned. -/
def paginateFiltered (filtered : List String) (pageSize : Nat) :
    PageParam → Except SearchError (List String)
  | PageParam.malformed => .error SearchError.badRequest
  | PageParam.page n =>
    let numPages : Nat := max 1 ((filtered.length + pageSize - 1) / pageSize)
    if n < 1 ∨ (numPages : Int) < n then .error SearchError.notFound
    else .ok ((filtered.drop ((n.toNat - 1) * pageSize)).take pageSize)

/-- **C4.** Search reconciliation preserves the external index's ordering:
for every ordered external identifier list and authorized set, the result is
a subsequence of the external list (same relative order, never re-sorted)
whose members are exactly the external identifiers that are authorized; on
the spec's example, external order `[d3, d1, d2]` with only `d1, d3`
authorized yields `[d3, d1]`. -/
theorem C4_reconciliation_preserves_external_order (externalIds : List String)
    (authorized : List String) :
    ((reconcile externalIds authorized).Sublist externalIds) ∧
    (∀ i, i ∈ reconcile externalIds authorized ↔
      i ∈ externalIds ∧ i ∈ authorized) ∧
    (reconcile ["d3", "d1", "d2"] ["d1", "d3"] = ["d3", "d1"]) := by
  refine ⟨List.filter_sublist _, ?_, by decide⟩
  intro i
  rw [reconcile, List.mem_filter]
  simp

/-- **C9.** A search request whose page number is beyond the range of the
authorization-filtered result count gets a not-found condition, not an empty
successful page; this is distinct from the bad-request condition returned
for a malformed page parameter. -/
theorem C9_page_beyond_filtered_count_is_not_found (filtered : List String)
    (pageSize : Nat) (n : Int)
    (hrange : (((max 1 ((filtered.length + pageSize - 1) / pageSize) : Nat)) : Int) < n) :
    (paginateFiltered filtered pageSize (PageParam.page n) =
      .error SearchError.notFound) ∧
    (∀ items, paginateFiltered filtered pageSize (PageParam.page n) ≠ .ok items) ∧
    (paginateFiltered filtered pageSize PageParam.malformed =
      .error SearchError.badRequest) ∧
    SearchError.notFound ≠ SearchError.badRequest := by
  have hpage : paginateFiltered filtered pageSize (PageParam.page n) =
      .error SearchError.notFound := by
    simp only [paginateFiltered]
    rw [if_pos (Or.inr hrange)]
  refine ⟨hpage, ?_, rfl, by decide⟩
  intro items hok
  rw [hpage] at hok
  exact Except.noConfusion hok

/-- Witness for C9: ten filtered results, page size 5, page 3 — two pages
exist, so page 3 is out of range and maps to not-found. -/
theorem C9_page_beyond_filtered_count_is_not_found_witness :
    paginateFiltered ["a", "b", "c", "d", "e", "f", "g", "h", "i", "j"] 5
        (PageParam.page 3) = .error SearchError.notFound :=
  (C9_page_beyond_filtered_count_is_not_found
    ["a", "b", "c", "d", "e", "f", "g", "h", "i", "j"] 5 3 (by decide)).1

end DocsSearch
